import Mathlib

/-!
Shallow embedding of the kajet interactive-whiteboard core
(src/camera.rs, src/units.rs, src/graphics.rs, src/command.rs,
src/scene.rs, src/state.rs, src/main.rs) and proofs about it.

Numeric model: the program's `f32` values are modeled as exact rationals
(`ℚ`); the algebraic identities proved below therefore hold exactly, in
particular within any floating-point tolerance the specification allows.
`usize` counters are `ℕ`, with an explicit `% 2 ^ 64` where the original
unsigned arithmetic can wrap.  Raylib textures and colors are inert data
for every property considered here and are modeled as opaque `ℕ` tokens.
-/

namespace Kajet

/-- Animation tolerance used by `Interpolator::advance` (src/camera.rs). -/
def tol : ℚ := 1 / 1000

/-- src/camera.rs `struct Interpolator`. -/
structure Interpolator where
  starting : ℚ
  current : ℚ
  target : ℚ
  duration_sec : ℚ
  is_increasing : Bool
deriving DecidableEq

/-- src/camera.rs `Interpolator::new`. -/
def Interpolator.new (starting target duration_sec : ℚ) : Interpolator :=
  ⟨starting, starting, target, duration_sec, decide (starting < target)⟩

/-- src/camera.rs `Interpolator::advance`: the step to apply this tick
(`none` when the animation is at rest) together with the updated
interpolator. -/
def Interpolator.advance (i : Interpolator) (dt : ℚ) : Option ℚ × Interpolator :=
  if (i.is_increasing ∧ i.current + tol ≥ i.target) ∨
      (¬ i.is_increasing ∧ i.current ≤ i.target + tol) then
    (none, { i with starting := i.target })
  else
    let delta := if i.duration_sec = 0 then i.target - i.starting
      else (i.target - i.starting) / i.duration_sec * dt
    (some delta, { i with current := i.current + delta })

/-- src/camera.rs `struct Camera`. -/
structure Camera where
  zoom : ℚ
  pos : ℚ × ℚ
  width : ℚ
  height : ℚ
  zoom_interp : Interpolator
  pos_x_interp : Interpolator
  pos_y_interp : Interpolator
deriving DecidableEq

/-- src/camera.rs `Camera::update_zoom`. -/
def Camera.update_zoom (c : Camera) (target : ℚ) : Camera :=
  { c with zoom_interp := Interpolator.new c.zoom target (7 / 100) }

/-- src/camera.rs `Camera::update_pos`. -/
def Camera.update_pos (c : Camera) (mouse_delta : ℚ × ℚ) : Camera :=
  let diff := (mouse_delta.1 / c.zoom, mouse_delta.2 / c.zoom)
  let new_pos := (c.pos.1 - diff.1, c.pos.2 - diff.2)
  { c with pos_x_interp := Interpolator.new c.pos.1 new_pos.1 0,
           pos_y_interp := Interpolator.new c.pos.2 new_pos.2 0 }

/-- src/camera.rs `Camera::update`, one frame tick.  The values the code
reads from raylib (frame time, mouse position, render size) are passed in
as arguments.  Returns the updated camera and the `updated` flag. -/
def Camera.update (c : Camera) (dt : ℚ) (mouse : ℚ × ℚ)
    (render_width render_height : ℚ) : Camera × Bool :=
  let c0 := { c with width := render_width / c.zoom, height := render_height / c.zoom }
  let px := c0.pos_x_interp.advance dt
  let c1 := match px.1 with
    | some dx => { c0 with pos := (c0.pos.1 + dx, c0.pos.2), pos_x_interp := px.2 }
    | none => { c0 with pos_x_interp := px.2 }
  let py := c1.pos_y_interp.advance dt
  let c2 := match py.1 with
    | some dy => { c1 with pos := (c1.pos.1, c1.pos.2 + dy), pos_y_interp := py.2 }
    | none => { c1 with pos_y_interp := py.2 }
  let prev_zoom := c2.zoom
  let pz := c2.zoom_interp.advance dt
  let c3 := match pz.1 with
    | some dz =>
        let zoom := c2.zoom + dz
        let pos := (c2.pos.1 - mouse.1 * (1 / zoom - 1 / prev_zoom),
                    c2.pos.2 - mouse.2 * (1 / zoom - 1 / prev_zoom))
        { c2 with zoom := zoom, pos := pos, zoom_interp := pz.2,
                  pos_x_interp := Interpolator.new pos.1 pos.1 0,
                  pos_y_interp := Interpolator.new pos.2 pos.2 0 }
    | none => { c2 with zoom_interp := pz.2 }
  (c3, px.1.isSome || py.1.isSome || pz.1.isSome)

/-- src/units.rs `Transformable<CanvasSpace, ScreenSpace> for Length`. -/
def lengthToScreen (l : ℚ) (c : Camera) : ℚ := l * c.zoom

/-- src/units.rs `Transformable<ScreenSpace, CanvasSpace> for Length`. -/
def lengthToCanvas (l : ℚ) (c : Camera) : ℚ := l / c.zoom

/-- src/units.rs `Transformable<CanvasSpace, ScreenSpace> for Point`:
`(self.v - camera.pos) * camera.zoom`. -/
def pointToScreen (p : ℚ × ℚ) (c : Camera) : ℚ × ℚ :=
  ((p.1 - c.pos.1) * c.zoom, (p.2 - c.pos.2) * c.zoom)

/-- src/units.rs `Transformable<ScreenSpace, CanvasSpace> for Point`:
`self.v / camera.zoom + camera.pos`. -/
def pointToCanvas (p : ℚ × ℚ) (c : Camera) : ℚ × ℚ :=
  (p.1 / c.zoom + c.pos.1, p.2 / c.zoom + c.pos.2)

/-- src/units.rs `Transformable<CanvasSpace, ScreenSpace> for Vector`. -/
def vectorToScreen (v : ℚ × ℚ) (c : Camera) : ℚ × ℚ := (v.1 * c.zoom, v.2 * c.zoom)

/-- src/units.rs `Transformable<ScreenSpace, CanvasSpace> for Vector`. -/
def vectorToCanvas (v : ℚ × ℚ) (c : Camera) : ℚ × ℚ := (v.1 / c.zoom, v.2 / c.zoom)

/-- src/units.rs `struct Rect`: a position plus signed extents. -/
structure Rect where
  pos : ℚ × ℚ
  w : ℚ
  h : ℚ
deriving DecidableEq

/-- src/units.rs `Rect::normalized`. -/
def Rect.normalized (r : Rect) : Rect :=
  let x := if r.w < 0 then r.pos.1 + r.w else r.pos.1
  let w := if r.w < 0 then -r.w else r.w
  let y := if r.h < 0 then r.pos.2 + r.h else r.pos.2
  let h := if r.h < 0 then -r.h else r.h
  ⟨(x, y), w, h⟩

/-- src/units.rs `Transformable<CanvasSpace, ScreenSpace> for Rect`. -/
def rectToScreen (r : Rect) (c : Camera) : Rect :=
  ⟨pointToScreen r.pos c, lengthToScreen r.w c, lengthToScreen r.h c⟩

/-- src/units.rs `Transformable<ScreenSpace, CanvasSpace> for Rect`. -/
def rectToCanvas (r : Rect) (c : Camera) : Rect :=
  ⟨pointToCanvas r.pos c, lengthToCanvas r.w c, lengthToCanvas r.h c⟩

/-- Modelled from the spec: raylib's `CheckCollisionPointRec` (the external
rasterizer collaborator, not part of this repository): a point collides
with a rectangle iff it lies between the origin and origin plus extents.
src/units.rs `Rect::check_collision_point` passes the rectangle to it
UN-normalized (`self.to_raylib()`). -/
def Rect.check_collision_point (r : Rect) (p : ℚ × ℚ) : Bool :=
  decide (r.pos.1 ≤ p.1 ∧ p.1 < r.pos.1 + r.w ∧ r.pos.2 ≤ p.2 ∧ p.2 < r.pos.2 + r.h)

/-- Point-set containment for a possibly negative-extent rectangle: the
set of points a dragged rectangle covers (spec 4.1: normalization "picks
the correct corner as origin"). -/
abbrev Rect.covers (r : Rect) (p : ℚ × ℚ) : Prop :=
  min r.pos.1 (r.pos.1 + r.w) ≤ p.1 ∧ p.1 ≤ max r.pos.1 (r.pos.1 + r.w) ∧
  min r.pos.2 (r.pos.2 + r.h) ≤ p.2 ∧ p.2 ≤ max r.pos.2 (r.pos.2 + r.h)

/-- Color values (raylib `Color`) are inert for every claim considered. -/
abbrev Color := ℕ

/-- src/graphics.rs `struct Brush` (canvas-space brush). -/
structure Brush where
  color : Color
  thickness : ℚ
deriving DecidableEq

/-- src/graphics.rs `struct Line`. -/
structure Line where
  points : List (ℚ × ℚ)
  finished : Bool
  brush : Brush
  z : ℕ
deriving DecidableEq

/-- src/graphics.rs `Line::new`. -/
def Line.new (start : ℚ × ℚ) (brush : Brush) (z : ℕ) : Line :=
  ⟨[start], false, brush, z⟩

/-- src/graphics.rs `struct Image`; the `Rc<Texture2D>` pixel data is an
opaque shared token. -/
structure Image where
  pos : ℚ × ℚ
  texture : ℕ
  is_selected : Bool
  scale : ℚ
  id : ℕ
  z : ℕ
  border_color : Color
deriving DecidableEq

/-- src/graphics.rs `struct FilledRect`. -/
structure FilledRect where
  rect : Rect
  color : Color
deriving DecidableEq

/-- src/graphics.rs `FilledRect::new`. -/
def FilledRect.new (rect : Rect) (color : Color) : FilledRect := ⟨rect, color⟩

/-- src/graphics.rs `FilledRect::normalized_rect`. -/
def FilledRect.normalized_rect (fr : FilledRect) : Rect :=
  let x := if fr.rect.w < 0 then fr.rect.pos.1 + fr.rect.w else fr.rect.pos.1
  let w := if fr.rect.w < 0 then -fr.rect.w else fr.rect.w
  let y := if fr.rect.h < 0 then fr.rect.pos.2 + fr.rect.h else fr.rect.pos.2
  let h := if fr.rect.h < 0 then -fr.rect.h else fr.rect.h
  ⟨(x, y), w, h⟩

/-- src/graphics.rs `Drawable::draw` for `FilledRect`: the rectangle that
is actually rasterized is its normalized rectangle, transformed to screen
space. -/
def FilledRect.drawnRect (fr : FilledRect) (c : Camera) : Rect :=
  rectToScreen fr.normalized_rect c

/-- src/graphics.rs `struct Eraser`. -/
structure Eraser where
  rect : FilledRect
  z : ℕ
deriving DecidableEq

/-- src/graphics.rs `Eraser::new`. -/
def Eraser.new (rect : Rect) (color : Color) (z : ℕ) : Eraser :=
  ⟨FilledRect.new rect color, z⟩

/-- src/graphics.rs `struct Contents`.  The per-frame `overlay` of boxed
drawables is transient (cleared every frame, only pushed by the state
handlers for previews); its entries are opaque tokens here — no command
touches it. -/
structure Contents where
  overlay : List ℕ
  lines : List Line
  images : List Image
  erasers : List Eraser
  z : ℕ
  next_image_id : ℕ
deriving DecidableEq

/-- src/graphics.rs `Contents::new`. -/
def Contents.new : Contents := ⟨[], [], [], [], 0, 0⟩

/-- src/graphics.rs `Contents::next_image_id`: post-increments the id
counter and returns the previous value. -/
def Contents.fresh_image_id (c : Contents) : ℕ × Contents :=
  (c.next_image_id, { c with next_image_id := c.next_image_id + 1 })

/-- src/graphics.rs `Contents::image`: the first image with the given id
(`iter_mut().find`). -/
def Contents.image (c : Contents) (id : ℕ) : Option Image :=
  c.images.find? (fun i => i.id == id)

/-- Mutation through src/graphics.rs `Contents::image`: apply `f` to the
first image satisfying `p`, as mutating through `iter_mut().find` does. -/
def updateFirst (p : Image → Bool) (f : Image → Image) : List Image → List Image
  | [] => []
  | i :: is => if p i then f i :: is else i :: updateFirst p f is

/-- Helper for src/graphics.rs `Contents::remove_image`: locate and remove
the first image with the given id (`iter().position` + `Vec::remove`). -/
def removeFirst (id : ℕ) : List Image → Option (Image × List Image)
  | [] => none
  | i :: is => if i.id == id then some (i, is)
    else (removeFirst id is).map (fun q => (q.1, i :: q.2))

/-- src/graphics.rs `Contents::remove_image`. -/
def Contents.remove_image (c : Contents) (id : ℕ) : Option Image × Contents :=
  match removeFirst id c.images with
  | none => (none, c)
  | some (img, rest) => (some img, { c with images := rest })

/-- src/graphics.rs `Contents::move_image_up`. -/
def Contents.move_image_up (c : Contents) (id : ℕ) : Contents :=
  { c with images := (updateFirst (fun i => i.id == id)
      (fun i => { i with z := min (i.z + 1) c.z }) c.images) }

/-- src/graphics.rs `Contents::move_image_down` (`saturating_sub 1`). -/
def Contents.move_image_down (c : Contents) (id : ℕ) : Contents :=
  { c with images := (updateFirst (fun i => i.id == id)
      (fun i => { i with z := i.z - 1 }) c.images) }

/-- src/command.rs: the closed set of `Command` implementations. -/
inductive Command where
  | drawLine (line : Line)
  | pasteImage (image : Image)
  | removeImage (image : Image)
  | resizeImage (id : ℕ) (start_scale end_scale : ℚ)
  | moveImage (id : ℕ) (start_pos end_pos : ℚ × ℚ)
  | addEraser (eraser : Eraser)
deriving DecidableEq

/-- src/command.rs `Command::execute`, variant by variant. -/
def Command.execute : Command → Contents → Contents
  | .drawLine line, c => { c with lines := c.lines ++ [line] }
  | .pasteImage image, c => { c with images := c.images ++ [image] }
  | .removeImage image, c =>
      { c with images := c.images.filter (fun i => i.id != image.id) }
  | .resizeImage id _ e, c =>
      { c with images := (updateFirst (fun i => i.id == id)
          (fun i => { i with scale := e }) c.images) }
  | .moveImage id _ e, c =>
      { c with images := (updateFirst (fun i => i.id == id)
          (fun i => { i with pos := e }) c.images) }
  | .addEraser eraser, c => { c with erasers := c.erasers ++ [eraser] }

/-- src/command.rs `Command::undo`, variant by variant. -/
def Command.undo : Command → Contents → Contents
  | .drawLine _, c => { c with lines := c.lines.dropLast }
  | .pasteImage _, c => { c with images := c.images.dropLast }
  | .removeImage image, c => { c with images := c.images ++ [image] }
  | .resizeImage id s _, c =>
      { c with images := (updateFirst (fun i => i.id == id)
          (fun i => { i with scale := s }) c.images) }
  | .moveImage id s _, c =>
      { c with images := (updateFirst (fun i => i.id == id)
          (fun i => { i with pos := s }) c.images) }
  | .addEraser _, c => { c with erasers := c.erasers.dropLast }

/-- src/command.rs `struct CommandInvoker`. -/
structure CommandInvoker where
  undos : List Command
  redos : List Command
  buffer_size : ℕ
deriving DecidableEq

/-- src/command.rs `CommandInvoker::new`. -/
def CommandInvoker.new (buffer_size : ℕ) : CommandInvoker := ⟨[], [], buffer_size⟩

/-- The eviction loop `while q.len() >= self.buffer_size { q.pop_front(); }`
from src/command.rs, with explicit fuel.  `pop_front` on an empty deque is
a no-op, so with `buffer_size = 0` the condition `0 >= 0` never becomes
false and the loop never terminates; `none` models that divergence (for
every fuel, see `evictFuel_cap_zero`).  For `buffer_size ≥ 1` the fuel
`q.length + 1` used below always suffices (see `evictFuel_spec`). -/
def evictFuel : ℕ → ℕ → List Command → Option (List Command)
  | 0, _, _ => none
  | f + 1, cap, q => if cap ≤ q.length then evictFuel f cap q.tail else some q

/-- src/command.rs `CommandInvoker::push`. -/
def CommandInvoker.push (inv : CommandInvoker) (c : Command) : Option CommandInvoker :=
  (evictFuel (inv.undos.length + 1) inv.buffer_size inv.undos).map
    (fun u => { inv with undos := u ++ [c] })

/-- src/command.rs `CommandInvoker::undo`. -/
def CommandInvoker.undo (inv : CommandInvoker) (contents : Contents) :
    Option (CommandInvoker × Contents) :=
  match inv.undos.getLast? with
  | none => some (inv, contents)
  | some cmd =>
      (evictFuel (inv.redos.length + 1) inv.buffer_size inv.redos).map
        (fun r => ({ inv with undos := inv.undos.dropLast, redos := r ++ [cmd] },
          cmd.undo contents))

/-- src/command.rs `CommandInvoker::redo`. -/
def CommandInvoker.redo (inv : CommandInvoker) (contents : Contents) :
    Option (CommandInvoker × Contents) :=
  match inv.redos.getLast? with
  | none => some (inv, contents)
  | some cmd =>
      (evictFuel (inv.undos.length + 1) inv.buffer_size inv.undos).map
        (fun u => ({ inv with redos := inv.redos.dropLast, undos := u ++ [cmd] },
          cmd.execute contents))

/-- Pushing a sequence of commands in order, via `CommandInvoker::push`. -/
def CommandInvoker.pushAll (inv : CommandInvoker) (cs : List Command) :
    Option CommandInvoker :=
  cs.foldlM CommandInvoker.push inv

/-- src/scene.rs `Scene::update_color` (same expression in the color-key
handler of src/main.rs), release-build semantics: `color_idx` is a
`usize`, so `color_idx - 1` wraps modulo `2 ^ 64` when `color_idx = 0` (a
debug build aborts on the underflow instead); the `% colors.len()` applies
to the result of the whole `if` expression. -/
def update_color (forward : Bool) (color_idx n : ℕ) : ℕ :=
  (if forward then (color_idx + 1) % 2 ^ 64
   else (color_idx + 2 ^ 64 - 1) % 2 ^ 64) % n

/-- Modelled from the spec: the intended color cycling using signed modulo
arithmetic (design note: "treat this as a defect to fix via signed modulo
arithmetic"), which from index 0 steps backward to `n - 1`. -/
def update_color_intended (forward : Bool) (color_idx n : ℕ) : ℕ :=
  if forward then (color_idx + 1) % n else (color_idx + n - 1) % n

/-- One entry of the combined paint list built by `StateHandler::draw`
(src/state.rs) and `Scene::draw` (src/scene.rs). -/
inductive PItem where
  | line (l : Line)
  | image (i : Image)
  | eraser (e : Eraser)
deriving DecidableEq

/-- `Drawable::z` of a combined paint item. -/
def PItem.z : PItem → ℕ
  | .line l => l.z
  | .image i => i.z
  | .eraser e => e.z

/-- src/state.rs and src/scene.rs build the combined list images first,
then lines, then erasers. -/
def combined (c : Contents) : List PItem :=
  c.images.map PItem.image ++ c.lines.map PItem.line ++ c.erasers.map PItem.eraser

/-- Stable insertion of an item into a z-sorted list: on equal keys the
already-placed (earlier) elements stay first. -/
def insertZ (a : PItem) : List PItem → List PItem
  | [] => [a]
  | b :: l => if a.z ≤ b.z then a :: b :: l else b :: insertZ a l

/-- Stable sort by z: the semantics of Rust's stable
`combined.sort_by_key(|i| i.z())`.  A stable sort's output is uniquely
determined by the input order and the keys, so insertion sort is a
faithful model of the slice sort the code calls. -/
def sortZ : List PItem → List PItem
  | [] => []
  | a :: l => insertZ a (sortZ l)

/-- The persisted paint order of a document: the combined list stably
sorted by z (src/scene.rs `Scene::draw`; src/state.rs
`StateHandler::draw` additionally culls off-screen items and appends the
transient overlay after sorting, neither of which reorders persisted
items relative to each other). -/
def paintOrder (c : Contents) : List PItem :=
  sortZ (combined c)

/-- The Boolean "has z equal to k" predicate used to state stability. -/
def pz (k : ℕ) (x : PItem) : Bool := x.z == k

/-- Sortedness by the z key. -/
abbrev SortedZ (l : List PItem) : Prop :=
  List.Pairwise (fun a b => PItem.z a ≤ PItem.z b) l

/-- The scene data record threaded through every `StateHandler` in
src/state.rs; contents, camera and command invoker are the fields the
modeled handlers read or write. -/
structure SceneData where
  contents : Contents
  camera : Camera
  command_invoker : CommandInvoker
deriving DecidableEq

/-- src/state.rs `struct MovingImage`: the moved image's id plus the
position recorded on entry. -/
structure MovingImage where
  id : ℕ
  start_pos : ℚ × ℚ
deriving DecidableEq

/-- Squared Euclidean distance.  `Point::distance_to` computes its square
root; every comparison of the source form `dist * zoom > t` is
rationalized below to `squaredDist * zoom ^ 2 > t ^ 2`, which is
equivalent whenever `zoom > 0` and `t ≥ 0` since `dist ≥ 0`. -/
def squaredDist (p q : ℚ × ℚ) : ℚ :=
  (q.1 - p.1) ^ 2 + (q.2 - p.2) ^ 2

/-- src/state.rs `MovingImage::on_exit`: look up the moved image (the
source `expect`s it, modeled as `none` on a missing id) and push a
`MoveImage` command iff the start-to-end displacement transformed to
screen space exceeds 10 pixels.  The source compares
`start_pos.distance_to(&img.pos).transform(&camera) > 10.0`; the
comparison is squared here (equivalent for a positive zoom). -/
def MovingImage.on_exit (st : MovingImage) (data : SceneData) : Option SceneData :=
  match data.contents.image st.id with
  | none => none
  | some img =>
      if squaredDist st.start_pos img.pos * data.camera.zoom ^ 2 > 10 ^ 2 then
        (data.command_invoker.push (.moveImage st.id st.start_pos img.pos)).map
          (fun inv => { data with command_invoker := inv })
      else
        some data

/-- The contents mutation performed by src/state.rs
`Idle::try_paste_image`: bump the shared z counter, build the image at
the drop position with scale `1 / zoom` and a fresh id, and append it
(the texture decoding and the pushed `PasteImage` command do not affect
the paint order and are omitted; position and texture arrive as
arguments). -/
def try_paste_image (c : Contents) (pos : ℚ × ℚ) (tex : ℕ) (zoom : ℚ)
    (border : Color) : Contents :=
  let z := c.z + 1
  let fresh := c.fresh_image_id
  let image : Image := ⟨pos, tex, false, 1 / zoom, fresh.1, z, border⟩
  { fresh.2 with z := z, images := fresh.2.images ++ [image] }

/-- src/state.rs `Drawing::on_enter`: start a new line at the cursor with
the CURRENT z counter (the counter is not bumped for lines). -/
def drawing_on_enter (c : Contents) (pos : ℚ × ℚ) (brush : Brush) : Contents :=
  { c with lines := c.lines ++ [Line.new pos brush c.z] }

/-- The observable data of an image named by claim C1: identity,
position, scale and layer. -/
def Image.obs (i : Image) : ℕ × (ℚ × ℚ) × ℚ × ℕ :=
  (i.id, i.pos, i.scale, i.z)

/-- Observational equality of two documents as claim C1 states it: same
lines (with their points), same image membership with the same pos,
scale and z, same erasers, and the same paint z-order. -/
abbrev ObsEq (c₁ c₂ : Contents) : Prop :=
  c₁.lines = c₂.lines ∧
  (c₁.images.map Image.obs).Perm (c₂.images.map Image.obs) ∧
  c₁.erasers = c₂.erasers ∧
  paintOrder c₁ = paintOrder c₂

/-- A command is applicable to a document (claim C1's precondition): the
image it names is present; line and eraser commands always apply. -/
abbrev Command.applicable : Command → Contents → Prop
  | .drawLine _, _ => True
  | .pasteImage _, _ => True
  | .removeImage image, c => ∃ i ∈ c.images, i.id = image.id
  | .resizeImage id _ _, c => ∃ i ∈ c.images, i.id = id
  | .moveImage id _ _, c => ∃ i ∈ c.images, i.id = id
  | .addEraser _, _ => True

/-- The strengthened applicability under which execute-then-undo is an
exact observational round trip: `ResizeImage` and `MoveImage` must find
the image still carrying the recorded `start` value, and the image
removed by `RemoveImage` must be the stored snapshot, with an id no other
image has and a z no later image shares (otherwise `undo` re-appends it
at the END of the image list, and the paint order among equal-z ties
shifts). -/
abbrev Command.applicableExact : Command → Contents → Prop
  | .drawLine _, _ => True
  | .pasteImage _, _ => True
  | .removeImage image, c =>
      ∃ l₁ l₂, c.images = l₁ ++ image :: l₂ ∧
        (∀ x ∈ l₁, x.id ≠ image.id) ∧ (∀ x ∈ l₂, x.id ≠ image.id) ∧
        (∀ x ∈ l₂, x.z ≠ image.z)
  | .resizeImage id s _, c => ∀ i, c.image id = some i → i.scale = s
  | .moveImage id s _, c => ∀ i, c.image id = some i → i.pos = s
  | .addEraser _, _ => True

/- Concrete fixtures used by counterexamples and witnesses. -/

/-- A sample brush. -/
def exBrush : Brush := ⟨0, 1⟩

/-- A sample finished one-point line at z = 0. -/
def exLine : Line := ⟨[(0, 0)], true, exBrush, 0⟩

/-- A second sample line. -/
def exLine2 : Line := ⟨[(2, 3)], true, exBrush, 0⟩

/-- A sample eraser. -/
def exEraser : Eraser := ⟨⟨⟨(0, 0), 1, 1⟩, 0⟩, 0⟩

/-- C1 counterexample fixture: a document whose single image (id 0) has
scale 3. -/
def exImageC1 : Image := ⟨(0, 0), 5, false, 3, 0, 1, 0⟩

/-- C1 counterexample document. -/
def exContentsC1 : Contents := ⟨[], [], [exImageC1], [], 1, 1⟩

/-- C1 counterexample command: resize image 0 from scale 1 to scale 2
(recorded in a state the document is no longer in). -/
def exCmdC1 : Command := .resizeImage 0 1 2

/-- C5 counterexample: the line inserted first, at z = 0. -/
def exLineC5 : Line := Line.new (0, 0) exBrush 0

/-- C5 counterexample: the image pasted afterwards and then moved one
layer down, ending at z = 0 as well. -/
def exImageC5 : Image := ⟨(1, 1), 7, false, 1, 0, 0, 0⟩

/-- C5 counterexample document, built by the state-machine operations:
draw a line (z stays 0), paste an image (z counter bumps to 1, image gets
z = 1), then `move_image_down` the image to z = 0. -/
def exContentsC5 : Contents :=
  Contents.move_image_down
    (try_paste_image (drawing_on_enter Contents.new (0, 0) exBrush) (1, 1) 7 1 0) 0

/-- A camera at rest used by witnesses: zoom 2, origin (3, 4). -/
def exCameraRest : Camera :=
  ⟨2, (3, 4), 0, 0, ⟨2, 2, 2, 0, false⟩, ⟨3, 3, 3, 0, false⟩, ⟨4, 4, 4, 0, false⟩⟩

/-- A camera in the middle of a zoom animation (target 4, duration 0.07);
its pan interpolators are at rest. -/
def exCameraZooming : Camera :=
  ⟨2, (3, 4), 0, 0, ⟨2, 2, 4, 7 / 100, true⟩, ⟨3, 3, 3, 0, false⟩, ⟨4, 4, 4, 0, false⟩⟩

/-- C6 witness scene: one image (id 0) sitting 20 document units away
from the recorded start position, camera zoom 1, invoker capacity 1. -/
def exSceneC6 : SceneData :=
  ⟨⟨[], [], [⟨(20, 0), 7, true, 1, 0, 1, 0⟩], [], 1, 1⟩, exCameraRest, CommandInvoker.new 1⟩

/-- Decidability of claim C1's applicability predicate. -/
instance instDecidableApplicable (cmd : Command) (c : Contents) :
    Decidable (cmd.applicable c) := by
  cases cmd <;> simp only [Command.applicable] <;> infer_instance

/- List and sorting lemmas supporting the stable paint order. -/

theorem filter_insertZ (a : PItem) (l : List PItem) (k : ℕ) :
    (insertZ a l).filter (pz k) =
      if a.z = k then a :: l.filter (pz k) else l.filter (pz k) := by
  induction l with
  | nil =>
      by_cases h : a.z = k <;>
        simp [insertZ, List.filter_cons, List.filter_nil, pz, h]
  | cons b t ih =>
      by_cases hab : a.z ≤ b.z
      · rw [insertZ, if_pos hab]
        by_cases h : a.z = k <;>
          simp [List.filter_cons, pz, h]
      · rw [insertZ, if_neg hab]
        have hba : b.z < a.z := Nat.lt_of_not_le hab
        by_cases h : a.z = k
        · have hbk : ¬ (b.z = k) := by omega
          simp [List.filter_cons, pz, ih, h, hbk]
        · simp [List.filter_cons, pz, ih, h]

theorem filter_sortZ (l : List PItem) (k : ℕ) :
    (sortZ l).filter (pz k) = l.filter (pz k) := by
  induction l with
  | nil => rfl
  | cons a t ih =>
      by_cases h : a.z = k <;>
        simp [sortZ, filter_insertZ, h, ih, List.filter_cons, pz]

theorem mem_insertZ {x a : PItem} {l : List PItem} :
    x ∈ insertZ a l ↔ x = a ∨ x ∈ l := by
  induction l with
  | nil => simp [insertZ]
  | cons b t ih =>
      by_cases hab : a.z ≤ b.z
      · simp [insertZ, hab]
      · simp [insertZ, hab, ih]
        tauto

theorem sorted_insertZ {l : List PItem} (a : PItem) (h : SortedZ l) :
    SortedZ (insertZ a l) := by
  induction l with
  | nil => simp [insertZ]
  | cons b t ih =>
      obtain ⟨hb, ht⟩ := List.pairwise_cons.mp h
      by_cases hab : a.z ≤ b.z
      · have hstep : SortedZ (a :: b :: t) := by
          refine List.Pairwise.cons ?_ (List.Pairwise.cons hb ht)
          intro x hx
          rcases List.mem_cons.mp hx with rfl | hx
          · exact hab
          · exact le_trans hab (hb x hx)
        simpa [insertZ, hab] using hstep
      · have hba : b.z ≤ a.z := Nat.le_of_not_le hab
        have hstep : SortedZ (b :: insertZ a t) := by
          refine List.Pairwise.cons ?_ (ih ht)
          intro x hx
          rcases mem_insertZ.mp hx with rfl | hx
          · exact hba
          · exact hb x hx
        simpa [insertZ, hab] using hstep

theorem sorted_sortZ (l : List PItem) : SortedZ (sortZ l) := by
  induction l with
  | nil => exact List.Pairwise.nil
  | cons a t ih => exact sorted_insertZ a ih

theorem perm_insertZ (a : PItem) (l : List PItem) : (insertZ a l).Perm (a :: l) := by
  induction l with
  | nil => exact List.Perm.refl _
  | cons b t ih =>
      by_cases hab : a.z ≤ b.z
      · simp [insertZ, hab]
      · simp only [insertZ, if_neg hab]
        exact (ih.cons b).trans (List.Perm.swap a b t)

theorem perm_sortZ (l : List PItem) : (sortZ l).Perm l := by
  induction l with
  | nil => exact List.Perm.refl _
  | cons a t ih => exact (perm_insertZ a (sortZ t)).trans (ih.cons a)

/-- Two z-sorted lists with the same elements at every z value, in the
same relative order, are equal.  This is the uniqueness of stably sorted
output used to compare paint orders. -/
theorem eq_of_sortedZ_filter :
    ∀ {l₁ l₂ : List PItem}, SortedZ l₁ → SortedZ l₂ →
      (∀ k, l₁.filter (pz k) = l₂.filter (pz k)) → l₁ = l₂ := by
  intro l₁
  induction l₁ with
  | nil =>
      intro l₂ _ _ hf
      cases l₂ with
      | nil => rfl
      | cons b t₂ =>
          have hb := hf b.z
          simp [List.filter_cons, pz] at hb
  | cons a t₁ ih =>
      intro l₂ h₁ h₂ hf
      cases l₂ with
      | nil =>
          have ha := hf a.z
          simp [List.filter_cons, pz] at ha
      | cons b t₂ =>
          obtain ⟨h₁head, h₁tail⟩ := List.pairwise_cons.mp h₁
          obtain ⟨h₂head, h₂tail⟩ := List.pairwise_cons.mp h₂
          have hzeq : a.z = b.z := by
            by_contra hne
            have ha := hf a.z
            have hb := hf b.z
            rw [List.filter_cons, List.filter_cons] at ha hb
            rw [if_pos (show (pz a.z a) = true by simp [pz])] at ha
            rw [if_pos (show (pz b.z b) = true by simp [pz])] at hb
            rw [if_neg (show ¬ (pz a.z b) = true by
              simp only [pz, beq_iff_eq]; exact fun e => hne e.symm)] at ha
            rw [if_neg (show ¬ (pz b.z a) = true by
              simp only [pz, beq_iff_eq]; exact hne)] at hb
            have hamem : a ∈ t₂ :=
              (List.mem_filter.mp (ha ▸ List.mem_cons_self a (t₁.filter (pz a.z)))).1
            have hbmem : b ∈ t₁ :=
              (List.mem_filter.mp (hb.symm ▸ List.mem_cons_self b (t₂.filter (pz b.z)))).1
            have hba := h₂head a hamem
            have hab := h₁head b hbmem
            omega
          have ha := hf a.z
          rw [List.filter_cons, List.filter_cons] at ha
          rw [if_pos (show (pz a.z a) = true by simp [pz])] at ha
          rw [if_pos (show (pz a.z b) = true by simp [pz, hzeq])] at ha
          obtain ⟨hhead, -⟩ := List.cons.inj ha
          subst hhead
          congr 1
          apply ih h₁tail h₂tail
          intro k
          have h := hf k
          rw [List.filter_cons, List.filter_cons] at h
          by_cases hk : (pz k a) = true
          · rw [if_pos hk, if_pos hk] at h
            exact (List.cons.inj h).2
          · rwa [if_neg hk, if_neg hk] at h

/- Lemmas about mutation through `Contents::image` and `remove_image`. -/

theorem updateFirst_compose (p : Image → Bool) (f g : Image → Image)
    (hp : ∀ x, p (g x) = p x) (l : List Image) :
    updateFirst p f (updateFirst p g l) = updateFirst p (fun x => f (g x)) l := by
  induction l with
  | nil => rfl
  | cons i is ih =>
      by_cases h : p i
      · simp [updateFirst, h, hp i]
      · simp [updateFirst, h, ih]

theorem updateFirst_of_find_eq_none (p : Image → Bool) (f : Image → Image)
    {l : List Image} (h : l.find? p = none) : updateFirst p f l = l := by
  induction l with
  | nil => rfl
  | cons i is ih =>
      by_cases hp : p i
      · simp [List.find?_cons_of_pos _ hp] at h
      · rw [List.find?_cons_of_neg _ hp] at h
        simp [updateFirst, hp, ih h]

theorem updateFirst_of_fix (p : Image → Bool) (f : Image → Image)
    {l : List Image} {i : Image} (h : l.find? p = some i) (hfix : f i = i) :
    updateFirst p f l = l := by
  induction l with
  | nil => simp at h
  | cons j is ih =>
      by_cases hp : p j
      · have hji : j = i := by
          have := List.find?_cons_of_pos (l := is) hp
          rw [this] at h
          exact Option.some.inj h
        subst hji
        simp [updateFirst, hp, hfix]
      · rw [List.find?_cons_of_neg _ hp] at h
        simp [updateFirst, hp, ih h]

theorem removeFirst_eq_none {id : ℕ} {l : List Image}
    (h : removeFirst id l = none) : ∀ i ∈ l, i.id ≠ id := by
  induction l with
  | nil => simp
  | cons j is ih =>
      by_cases hp : (j.id == id) = true
      · simp [removeFirst, hp] at h
      · rw [removeFirst, if_neg hp] at h
        intro i hi
        rcases List.mem_cons.mp hi with rfl | hi
        · simpa using hp
        · exact ih (Option.map_eq_none.mp h) i hi

theorem removeFirst_eq_some {id : ℕ} :
    ∀ {l : List Image} {img : Image} {rest : List Image},
      removeFirst id l = some (img, rest) →
      img.id = id ∧ ∃ l₁ l₂, l = l₁ ++ img :: l₂ ∧ rest = l₁ ++ l₂ ∧
        ∀ x ∈ l₁, x.id ≠ id := by
  intro l
  induction l with
  | nil => intro img rest h; simp [removeFirst] at h
  | cons j is ih =>
      intro img rest h
      by_cases hp : (j.id == id) = true
      · rw [removeFirst, if_pos hp] at h
        obtain ⟨rfl, rfl⟩ : j = img ∧ is = rest := by
          simpa [Prod.ext_iff] using Option.some.inj h
        exact ⟨by simpa using hp, [], is, rfl, rfl, by simp⟩
      · rw [removeFirst, if_neg hp] at h
        cases hr : removeFirst id is with
        | none => rw [hr] at h; simp at h
        | some q =>
            rw [hr] at h
            obtain ⟨img2, rest2⟩ := q
            obtain ⟨rfl, rfl⟩ : img2 = img ∧ j :: rest2 = rest := by
              simpa [Prod.ext_iff] using Option.some.inj h
            obtain ⟨hid, l₁, l₂, hsplit, hrest, hl₁⟩ := ih hr
            refine ⟨hid, j :: l₁, l₂, by simp [hsplit], by simp [hrest], ?_⟩
            intro x hx
            rcases List.mem_cons.mp hx with rfl | hx
            · simpa using hp
            · exact hl₁ x hx

/- Lemmas about the bounded invoker queues. -/

theorem evictFuel_cap_zero (f : ℕ) (q : List Command) : evictFuel f 0 q = none := by
  induction f generalizing q with
  | zero => rfl
  | succ f ih => simp [evictFuel, ih]

theorem evictFuel_spec {cap : ℕ} (hcap : 1 ≤ cap) :
    ∀ (f : ℕ) (q : List Command), q.length < f →
      evictFuel f cap q = some (q.drop (q.length + 1 - cap)) := by
  intro f
  induction f with
  | zero => intro q h; exact absurd h (Nat.not_lt_zero _)
  | succ f ih =>
      intro q h
      by_cases hq : cap ≤ q.length
      · rw [evictFuel, if_pos hq, ih q.tail (by rw [List.length_tail]; omega)]
        congr 1
        simp only [← List.drop_one, List.drop_drop, List.length_drop]
        congr 1
        omega
      · rw [evictFuel, if_neg hq]
        have h0 : q.length + 1 - cap = 0 := by omega
        rw [h0, List.drop_zero]

theorem evictFuel_drop {f cap : ℕ} :
    ∀ {q u : List Command}, evictFuel f cap q = some u → ∃ d, u = q.drop d := by
  induction f with
  | zero => intro q u h; simp [evictFuel] at h
  | succ f ih =>
      intro q u h
      rw [evictFuel] at h
      by_cases hq : cap ≤ q.length
      · rw [if_pos hq] at h
        obtain ⟨d, hd⟩ := ih h
        exact ⟨d + 1, by rw [hd, ← List.drop_one, List.drop_drop, Nat.add_comm]⟩
      · rw [if_neg hq] at h
        exact ⟨0, (Option.some.inj h).symm⟩

theorem push_eq_some {inv : CommandInvoker} (hcap : 1 ≤ inv.buffer_size) (c : Command) :
    inv.push c =
      some ⟨inv.undos.drop (inv.undos.length + 1 - inv.buffer_size) ++ [c],
        inv.redos, inv.buffer_size⟩ := by
  unfold CommandInvoker.push
  rw [evictFuel_spec hcap _ _ (Nat.lt_succ_self _)]
  rfl

theorem pushAll_spec {cap : ℕ} (hcap : 1 ≤ cap) :
    ∀ (cs : List Command) (inv : CommandInvoker), inv.buffer_size = cap →
      inv.undos.length ≤ cap →
      inv.pushAll cs = some ⟨(inv.undos ++ cs).drop ((inv.undos ++ cs).length - cap),
        inv.redos, cap⟩ := by
  intro cs
  induction cs with
  | nil =>
      intro inv hbs hlen
      obtain ⟨u, r, b⟩ := inv
      simp only at hbs hlen
      subst hbs
      simp only [CommandInvoker.pushAll, List.foldlM_nil, List.append_nil]
      rw [Nat.sub_eq_zero_of_le hlen, List.drop_zero]
      rfl
  | cons a cs ih =>
      intro inv hbs hlen
      obtain ⟨u, r, b⟩ := inv
      simp only at hbs hlen
      subst hbs
      rw [CommandInvoker.pushAll, List.foldlM_cons, push_eq_some hcap a]
      show CommandInvoker.pushAll ⟨u.drop (u.length + 1 - b) ++ [a], r, b⟩ cs = _
      rw [ih ⟨u.drop (u.length + 1 - b) ++ [a], r, b⟩ rfl
        (by simp only [List.length_append, List.length_drop, List.length_cons,
          List.length_nil]; omega)]
      have hd : u.length + 1 - b ≤ u.length := by omega
      have key : (u.drop (u.length + 1 - b) ++ [a]) ++ cs
          = (u ++ a :: cs).drop (u.length + 1 - b) := by
        rw [List.drop_append_of_le_length hd, List.append_assoc, List.singleton_append]
      show some (⟨((u.drop (u.length + 1 - b) ++ [a]) ++ cs).drop
          (((u.drop (u.length + 1 - b) ++ [a]) ++ cs).length - b), r, b⟩ : CommandInvoker) = _
      rw [key, List.length_drop, List.drop_drop]
      have harith : u.length + 1 - b + ((u ++ a :: cs).length - (u.length + 1 - b) - b)
          = (u ++ a :: cs).length - b := by
        simp only [List.length_append, List.length_cons]
        omega
      rw [harith]

/-- Observational equality is reflexive. -/
theorem obsEq_refl (c : Contents) : ObsEq c c := ⟨rfl, List.Perm.refl _, rfl, rfl⟩

/-- C8 (evaluation at the failing input): with a 3-color palette and
current index 0, the backward color step underflows — the code produces
index 0 (after the wrap `(0 - 1) % 2 ^ 64 = 2 ^ 64 - 1` and `% 3`; a
debug build aborts instead), while the intended signed-modulo cycling
produces `n - 1 = 2`. -/
theorem C8_prev_color_underflow :
    update_color false 0 3 = 0 ∧ update_color_intended false 0 3 = 2 ∧
    update_color false 0 3 ≠ update_color_intended false 0 3 := by
  refine ⟨?_, by decide, ?_⟩ <;> decide

/-- C9 (amended): `Rect::normalized` returns nonnegative extents, moves
the origin to the true minimum corner and covers exactly the same set of
points, and `FilledRect::normalized_rect` — the rectangle the renderer
draws (`FilledRect.drawnRect`) — computes exactly `Rect::normalized` of
the stored rectangle, so normalization does happen before rendering.  The
`check_collision` hit-tests, by contrast, operate on the raw,
un-normalized rectangle: see the counterexample. -/
theorem C9_normalized_correct (r : Rect) (p : ℚ × ℚ) (fr : FilledRect) (cam : Camera) :
    0 ≤ r.normalized.w ∧ 0 ≤ r.normalized.h ∧
    r.normalized.pos = (min r.pos.1 (r.pos.1 + r.w), min r.pos.2 (r.pos.2 + r.h)) ∧
    (r.covers p ↔ r.normalized.covers p) ∧
    fr.normalized_rect = fr.rect.normalized ∧
    fr.drawnRect cam = rectToScreen fr.rect.normalized cam := by
  obtain ⟨⟨x, y⟩, w, h⟩ := r
  have hnorm : ∀ (x0 w0 : ℚ), (if w0 < 0 then x0 + w0 else x0) = min x0 (x0 + w0) := by
    intro x0 w0
    by_cases hw : w0 < 0
    · rw [if_pos hw, min_eq_right (by linarith)]
    · rw [if_neg hw, min_eq_left (by linarith)]
  refine ⟨?_, ?_, ?_, ?_, ?_, ?_⟩
  · show 0 ≤ (if w < 0 then -w else w)
    by_cases hw : w < 0
    · rw [if_pos hw]; linarith
    · rw [if_neg hw]; linarith
  · show 0 ≤ (if h < 0 then -h else h)
    by_cases hh : h < 0
    · rw [if_pos hh]; linarith
    · rw [if_neg hh]; linarith
  · show ((if w < 0 then x + w else x), (if h < 0 then y + h else y)) = _
    rw [hnorm x w, hnorm y h]
  · show _ ↔ Rect.covers ⟨(if w < 0 then x + w else x, if h < 0 then y + h else y),
      if w < 0 then -w else w, if h < 0 then -h else h⟩ p
    unfold Rect.covers
    dsimp only
    by_cases hw : w < 0 <;> by_cases hh : h < 0 <;>
      simp only [if_pos, if_neg, hw, hh, if_true, if_false] <;>
      constructor <;>
      (intro hc
       obtain ⟨h1, h2, h3, h4⟩ := hc
       refine ⟨?_, ?_, ?_, ?_⟩ <;>
         first
           | (rw [min_comm] at *; rw [max_comm] at *; linarith)
           | (simp only [min_def, max_def] at *; split_ifs at * <;> linarith))
  · rfl
  · rfl

/-- C9 counterexample: hit-testing is done on the raw rectangle.  The
dragged rectangle with origin (0, 0) and extents (-10, -10) covers the
point (-5, -5) — and its normalized form hit-tests it as inside — yet
`check_collision_point` on the raw rectangle reports no collision, so
normalization is NOT applied before hit-testing. -/
theorem C9_counterexample :
    Rect.check_collision_point ⟨(0, 0), -10, -10⟩ (-5, -5) = false ∧
    Rect.check_collision_point (Rect.normalized ⟨(0, 0), -10, -10⟩) (-5, -5) = true ∧
    Rect.covers ⟨(0, 0), -10, -10⟩ (-5, -5) := by
  refine ⟨?_, ?_, ?_⟩
  · simp only [Rect.check_collision_point, decide_eq_false_iff_not]
    norm_num
  · simp only [Rect.normalized, Rect.check_collision_point]
    norm_num
  · unfold Rect.covers
    norm_num

/-- C10: `Contents::remove_image` returns an owned image whose id equals
the requested id exactly when an image with that id is present, removing
its first occurrence while preserving the relative order of all remaining
images and leaving the overlay, lines, erasers, z counter and
next-image-id counter unchanged; when no image has the id it returns
`none` and the document is unchanged. -/
theorem C10_remove_image (c : Contents) (id : ℕ) :
    match c.remove_image id with
    | (some img, c2) =>
        img.id = id ∧
        (∃ l₁ l₂, c.images = l₁ ++ img :: l₂ ∧ (∀ x ∈ l₁, x.id ≠ id) ∧
          c2.images = l₁ ++ l₂) ∧
        c2.lines = c.lines ∧ c2.erasers = c.erasers ∧ c2.overlay = c.overlay ∧
        c2.z = c.z ∧ c2.next_image_id = c.next_image_id
    | (none, c2) => (∀ i ∈ c.images, i.id ≠ id) ∧ c2 = c := by
  cases hr : removeFirst id c.images with
  | none =>
      have hcr : c.remove_image id = (none, c) := by
        simp only [Contents.remove_image, hr]
      rw [hcr]
      exact ⟨removeFirst_eq_none hr, rfl⟩
  | some q =>
      obtain ⟨img, rest⟩ := q
      have hcr : c.remove_image id = (some img, { c with images := rest }) := by
        simp only [Contents.remove_image, hr]
      rw [hcr]
      obtain ⟨hid, l₁, l₂, hsplit, hrest, hl₁⟩ := removeFirst_eq_some hr
      exact ⟨hid, ⟨l₁, l₂, hsplit, hl₁, by simp [hrest]⟩, rfl, rfl, rfl, rfl, rfl⟩

/-- C7: whenever `push` terminates it mutates only the undo log —
dropping oldest entries and appending the new command at the back — and
leaves the redo log and the capacity untouched, so a fresh edit never
clears pending redo entries. -/
theorem C7_push_only_undo_log (inv : CommandInvoker) (c : Command)
    (inv2 : CommandInvoker) (h : inv.push c = some inv2) :
    inv2.redos = inv.redos ∧ inv2.buffer_size = inv.buffer_size ∧
    ∃ d, inv2.undos = inv.undos.drop d ++ [c] := by
  unfold CommandInvoker.push at h
  cases he : evictFuel (inv.undos.length + 1) inv.buffer_size inv.undos with
  | none => rw [he] at h; simp at h
  | some u =>
      rw [he] at h
      have h3 : some ({ inv with undos := u ++ [c] } : CommandInvoker) = some inv2 := h
      obtain ⟨d, hd⟩ := evictFuel_drop he
      have h2 := Option.some.inj h3
      subst h2
      exact ⟨rfl, rfl, d, by rw [hd]⟩

/-- C7 witness: pushing onto an invoker with capacity 2, an empty undo
log and a pending redo entry. -/
theorem C7_witness :
    (⟨[Command.drawLine exLine], [Command.addEraser exEraser], 2⟩
        : CommandInvoker).redos
      = (⟨[], [Command.addEraser exEraser], 2⟩ : CommandInvoker).redos ∧
    (⟨[Command.drawLine exLine], [Command.addEraser exEraser], 2⟩
        : CommandInvoker).buffer_size
      = (⟨[], [Command.addEraser exEraser], 2⟩ : CommandInvoker).buffer_size ∧
    ∃ d, (⟨[Command.drawLine exLine], [Command.addEraser exEraser], 2⟩
        : CommandInvoker).undos
      = (⟨[], [Command.addEraser exEraser], 2⟩ : CommandInvoker).undos.drop d
        ++ [Command.drawLine exLine] :=
  C7_push_only_undo_log ⟨[], [Command.addEraser exEraser], 2⟩ (Command.drawLine exLine)
    ⟨[Command.drawLine exLine], [Command.addEraser exEraser], 2⟩ rfl

/-- C2 (amended): for every capacity `c ≥ 1`, pushing `c + k` commands
into a fresh invoker terminates and leaves exactly the last `c` of them
recoverable (the oldest `k` are permanently dropped and the redo log
stays empty), and `undo` on an empty undo log is a no-op that returns the
document and both logs unchanged (at any capacity).  The claim's "edge
case c = 0" is false: there the eviction loop never terminates — see the
counterexample and `evictFuel_cap_zero`. -/
theorem C2_bounded_history :
    (∀ (cap k : ℕ) (cs : List Command), 1 ≤ cap → cs.length = cap + k →
      (CommandInvoker.new cap).pushAll cs = some ⟨cs.drop k, [], cap⟩) ∧
    (∀ (inv : CommandInvoker) (contents : Contents), inv.undos = [] →
      inv.undo contents = some (inv, contents)) := by
  constructor
  · intro cap k cs hcap hlen
    have hspec := pushAll_spec hcap cs (CommandInvoker.new cap) rfl
      (by simp [CommandInvoker.new])
    simp only [CommandInvoker.new, List.nil_append] at hspec
    simp only [CommandInvoker.new]
    rw [hspec, show cs.length - cap = k by omega]
  · intro inv contents h
    unfold CommandInvoker.undo
    rw [h]
    rfl

/-- C2 counterexample: with configured capacity 0, the eviction loop
condition `len >= 0` never becomes false (`pop_front` on an empty deque
is a no-op), so the very first `push` diverges: no state with "exactly 0
recoverable commands" is ever reached. -/
theorem C2_counterexample :
    (CommandInvoker.new 0).pushAll [Command.drawLine exLine] = none ∧
    ¬ (CommandInvoker.new 0).pushAll [Command.drawLine exLine]
        = some ⟨[], [], 0⟩ := by
  constructor
  · rfl
  · intro h
    rw [show (CommandInvoker.new 0).pushAll [Command.drawLine exLine]
      = none from rfl] at h
    exact Option.noConfusion h

/-- C2 witness: capacity 1, two pushes — only the second command remains;
undo on an empty undo log (capacity 3, one pending redo) is a no-op. -/
theorem C2_witness :
    (CommandInvoker.new 1).pushAll [Command.drawLine exLine, Command.drawLine exLine2]
        = some ⟨[Command.drawLine exLine, Command.drawLine exLine2].drop 1, [], 1⟩ ∧
    CommandInvoker.undo ⟨[], [Command.addEraser exEraser], 3⟩ Contents.new
        = some (⟨[], [Command.addEraser exEraser], 3⟩, Contents.new) :=
  ⟨C2_bounded_history.1 1 1 [Command.drawLine exLine, Command.drawLine exLine2]
      (by omega) rfl,
    C2_bounded_history.2 ⟨[], [Command.addEraser exEraser], 3⟩ Contents.new rfl⟩

/-- C3: for every camera with positive zoom, transforming a
document-space point to viewport space and back returns the original
point, and likewise for lengths, vectors and rectangles; in the exact
rational model the round trip is exact, hence in particular within the
claimed 1e-3 tolerance (spelled out for the point components). -/
theorem C3_space_round_trip (cam : Camera) (hz : 0 < cam.zoom) (p v : ℚ × ℚ)
    (l : ℚ) (r : Rect) :
    pointToCanvas (pointToScreen p cam) cam = p ∧
    lengthToCanvas (lengthToScreen l cam) cam = l ∧
    vectorToCanvas (vectorToScreen v cam) cam = v ∧
    rectToCanvas (rectToScreen r cam) cam = r ∧
    |(pointToCanvas (pointToScreen p cam) cam).1 - p.1| ≤ 1 / 1000 ∧
    |(pointToCanvas (pointToScreen p cam) cam).2 - p.2| ≤ 1 / 1000 := by
  have hz0 : cam.zoom ≠ 0 := ne_of_gt hz
  have hpt : ∀ q : ℚ × ℚ, pointToCanvas (pointToScreen q cam) cam = q := by
    intro q
    obtain ⟨qx, qy⟩ := q
    unfold pointToScreen pointToCanvas
    simp only [Prod.mk.injEq]
    constructor <;> (field_simp)
  have hlen : ∀ x : ℚ, lengthToCanvas (lengthToScreen x cam) cam = x := by
    intro x
    unfold lengthToScreen lengthToCanvas
    field_simp
  refine ⟨hpt p, hlen l, ?_, ?_, ?_, ?_⟩
  · obtain ⟨vx, vy⟩ := v
    unfold vectorToScreen vectorToCanvas
    simp only [Prod.mk.injEq]
    constructor <;> (field_simp)
  · obtain ⟨rp, rw2, rh2⟩ := r
    unfold rectToScreen rectToCanvas
    simp only [Rect.mk.injEq]
    exact ⟨hpt rp, hlen rw2, hlen rh2⟩
  · rw [hpt p]; simp
  · rw [hpt p]; simp

/-- C3 witness at a concrete camera (zoom 2, origin (3, 4)). -/
theorem C3_witness :
    pointToCanvas (pointToScreen (5, 7) exCameraRest) exCameraRest = (5, 7) ∧
    lengthToCanvas (lengthToScreen 9 exCameraRest) exCameraRest = 9 ∧
    vectorToCanvas (vectorToScreen (1, 2) exCameraRest) exCameraRest = (1, 2) ∧
    rectToCanvas (rectToScreen ⟨(0, 1), 2, 3⟩ exCameraRest) exCameraRest = ⟨(0, 1), 2, 3⟩ ∧
    |(pointToCanvas (pointToScreen (5, 7) exCameraRest) exCameraRest).1 - (5, 7).1|
        ≤ 1 / 1000 ∧
    |(pointToCanvas (pointToScreen (5, 7) exCameraRest) exCameraRest).2 - (5, 7).2|
        ≤ 1 / 1000 :=
  C3_space_round_trip exCameraRest (by norm_num [exCameraRest]) (5, 7) (1, 2) 9
    ⟨(0, 1), 2, 3⟩

/-- C5 (amended): the paint list is the stable sort by z of the combined
list, which is built images first, then lines, then erasers: the paint
list is z-sorted, a permutation of the combined list, and any two items
with equal z paint in their combined-list order.  For two items of the
SAME kind that order is insertion order (each kind's vector only ever has
items appended); across kinds, equal-z items paint images before lines
before erasers regardless of insertion time — see the counterexample. -/
theorem C5_stable_paint_order (c : Contents) (k : ℕ) :
    SortedZ (paintOrder c) ∧ (paintOrder c).Perm (combined c) ∧
    (paintOrder c).filter (pz k) = (combined c).filter (pz k) :=
  ⟨sorted_sortZ _, perm_sortZ _, filter_sortZ _ k⟩

/-- C5 counterexample: in `exContentsC5` the line was inserted first (its
z is 0), the image was pasted afterwards (z = 1) and then moved one layer
down to z = 0; with equal z the paint list draws the image BEFORE the
earlier-inserted line, refuting "equal z paints in insertion order" for
items of different kinds. -/
theorem C5_counterexample :
    exContentsC5.lines = [exLineC5] ∧ exContentsC5.images = [exImageC5] ∧
    exImageC5.z = exLineC5.z ∧
    paintOrder exContentsC5 = [PItem.image exImageC5, PItem.line exLineC5] := by
  refine ⟨?_, ?_, rfl, ?_⟩ <;>
    norm_num [exContentsC5, try_paste_image, drawing_on_enter, Contents.new,
      Contents.fresh_image_id, Contents.move_image_down, updateFirst, Line.new,
      exImageC5, exLineC5, exBrush, paintOrder, combined, sortZ, insertZ, PItem.z]

/-- Mutating the first match twice through `Contents::image` — first with
`g`, then with `f` — is the identity when `g` preserves the predicate and
`f` undoes `g` on the image actually found. -/
theorem updateFirst_round_trip (p : Image → Bool) (f g : Image → Image)
    (hpg : ∀ x, p (g x) = p x) :
    ∀ (l : List Image), (∀ i, l.find? p = some i → f (g i) = i) →
      updateFirst p f (updateFirst p g l) = l := by
  intro l
  induction l with
  | nil => intro _; rfl
  | cons j is ih =>
      intro hfix
      by_cases hp : p j = true
      · simp only [updateFirst]
        rw [if_pos hp]
        simp only [updateFirst]
        rw [if_pos ((hpg j).trans hp)]
        rw [hfix j (by rw [List.find?_cons_of_pos _ hp])]
      · simp only [updateFirst]
        rw [if_neg hp]
        simp only [updateFirst]
        rw [if_neg hp]
        congr 1
        exact ih (fun i hi => hfix i (by rw [List.find?_cons_of_neg _ hp]; exact hi))

/-- C1 (amended): execute-then-undo of a single command restores the
document to an observably identical state (same lines, same image
membership with the same pos, scale and z, same erasers, same paint
order), for every `DrawLine`, `PasteImage` and `AddEraser` on every
document, and for `ResizeImage`/`MoveImage`/`RemoveImage` on every
document in which the recorded data still matches: the target image (if
present) must still carry the recorded start scale/position, and the
removed image must be the stored snapshot with a unique id whose z no
later image shares (`undo` re-appends it at the END of the image list, so
an equal-z tie with a later image would change the paint order — see the
counterexample for the scale mismatch case). -/
theorem C1_execute_undo_round_trip (cmd : Command) (c : Contents)
    (h : cmd.applicableExact c) :
    ObsEq (cmd.undo (cmd.execute c)) c := by
  cases cmd with
  | drawLine line =>
      show ObsEq { c with lines := (c.lines ++ [line]).dropLast } c
      rw [List.dropLast_concat]
      exact obsEq_refl c
  | pasteImage image =>
      show ObsEq { c with images := (c.images ++ [image]).dropLast } c
      rw [List.dropLast_concat]
      exact obsEq_refl c
  | addEraser eraser =>
      show ObsEq { c with erasers := (c.erasers ++ [eraser]).dropLast } c
      rw [List.dropLast_concat]
      exact obsEq_refl c
  | resizeImage id s e =>
      have hrt : updateFirst (fun i => i.id == id) (fun i => { i with scale := s })
          (updateFirst (fun i => i.id == id) (fun i => { i with scale := e }) c.images)
          = c.images := by
        refine updateFirst_round_trip (fun i => i.id == id)
          (fun i => { i with scale := s }) (fun i => { i with scale := e })
          (fun x => rfl) c.images ?_
        intro i hi
        show ({ i with scale := s } : Image) = i
        rw [← h i hi]
      show ObsEq { c with images := (updateFirst (fun i => i.id == id)
        (fun i => { i with scale := s }) (updateFirst (fun i => i.id == id)
        (fun i => { i with scale := e }) c.images)) } c
      rw [hrt]
      exact obsEq_refl c
  | moveImage id s e =>
      have hrt : updateFirst (fun i => i.id == id) (fun i => { i with pos := s })
          (updateFirst (fun i => i.id == id) (fun i => { i with pos := e }) c.images)
          = c.images := by
        refine updateFirst_round_trip (fun i => i.id == id)
          (fun i => { i with pos := s }) (fun i => { i with pos := e })
          (fun x => rfl) c.images ?_
        intro i hi
        show ({ i with pos := s } : Image) = i
        rw [← h i hi]
      show ObsEq { c with images := (updateFirst (fun i => i.id == id)
        (fun i => { i with pos := s }) (updateFirst (fun i => i.id == id)
        (fun i => { i with pos := e }) c.images)) } c
      rw [hrt]
      exact obsEq_refl c
  | removeImage image =>
      obtain ⟨l₁, l₂, hsplit, hl₁, hl₂, hz₂⟩ := h
      have hf1 : l₁.filter (fun i => i.id != image.id) = l₁ :=
        List.filter_eq_self.mpr (fun a ha => by simpa [bne_iff_ne] using hl₁ a ha)
      have hf2 : l₂.filter (fun i => i.id != image.id) = l₂ :=
        List.filter_eq_self.mpr (fun a ha => by simpa [bne_iff_ne] using hl₂ a ha)
      have hfil : c.images.filter (fun i => i.id != image.id) = l₁ ++ l₂ := by
        rw [hsplit, List.filter_append, List.filter_cons,
          if_neg (by simp : ¬ ((image.id != image.id) = true)), hf1, hf2]
      show ObsEq { c with
        images := c.images.filter (fun i => i.id != image.id) ++ [image] } c
      rw [hfil]
      refine ⟨rfl, ?_, rfl, ?_⟩
      · show (((l₁ ++ l₂) ++ [image]).map Image.obs).Perm (c.images.map Image.obs)
        rw [hsplit]
        apply List.Perm.map
        rw [List.append_assoc]
        exact List.Perm.append_left l₁ (List.perm_append_singleton image l₂)
      · show paintOrder { c with images := (l₁ ++ l₂) ++ [image] } = paintOrder c
        unfold paintOrder
        apply eq_of_sortedZ_filter (sorted_sortZ _) (sorted_sortZ _)
        intro k
        rw [filter_sortZ, filter_sortZ]
        show ((((l₁ ++ l₂) ++ [image]).map PItem.image ++ c.lines.map PItem.line
            ++ c.erasers.map PItem.eraser).filter (pz k))
          = ((c.images.map PItem.image ++ c.lines.map PItem.line
            ++ c.erasers.map PItem.eraser).filter (pz k))
        rw [hsplit]
        by_cases hk : image.z = k
        · have h2 : (l₂.map PItem.image).filter (pz k) = [] := by
            rw [List.filter_eq_nil_iff]
            intro y hy
            obtain ⟨x, hx, rfl⟩ := List.mem_map.mp hy
            simp only [pz, PItem.z, beq_iff_eq]
            exact fun e => hz₂ x hx (e.trans hk.symm)
          simp [List.map_append, List.filter_append, List.filter_cons, pz,
            PItem.z, hk, h2]
        · simp [List.map_append, List.filter_append, List.filter_cons, pz,
            PItem.z, hk]

/-- C1 counterexample: the claim fails as universally stated.  In
`exContentsC1` the single image (id 0) has scale 3; the applicable
command `ResizeImage(0, start = 1, end = 2)` executes (scale becomes 2)
and undoes (scale becomes 1 — the recorded start, NOT the original 3), so
the document is not observably restored. -/
theorem C1_counterexample :
    Command.applicable exCmdC1 exContentsC1 ∧
    ¬ ObsEq (exCmdC1.undo (exCmdC1.execute exContentsC1)) exContentsC1 := by
  constructor
  · exact ⟨exImageC1, by simp [exContentsC1], rfl⟩
  · intro hobs
    have hperm := hobs.2.1
    have : Image.obs ⟨(0, 0), 5, false, 1, 0, 1, 0⟩ ∈
        [Image.obs exImageC1] := by
      apply hperm.mem_iff.mp
      show _ ∈ ((exCmdC1.undo (exCmdC1.execute exContentsC1)).images.map Image.obs)
      simp [exCmdC1, exContentsC1, Command.execute, Command.undo, updateFirst,
        exImageC1]
    simp [Image.obs, exImageC1, Prod.ext_iff] at this

/-- C1 witness: drawing a line on the empty document and undoing it. -/
theorem C1_witness :
    Command.applicableExact (Command.drawLine exLine) Contents.new ∧
    ObsEq ((Command.drawLine exLine).undo
      ((Command.drawLine exLine).execute Contents.new)) Contents.new :=
  ⟨trivial, C1_execute_undo_round_trip (Command.drawLine exLine) Contents.new trivial⟩

/-- C6: exiting the `MovingImage` state pushes exactly one `MoveImage`
command — recording the start and end positions — iff the start-to-end
displacement converted to viewport pixels through the current camera
exceeds the 10-pixel threshold; at or below the threshold the scene
(invoker included) is returned unchanged.  Hypotheses: the moved image is
present (the source `expect`s this), the invoker capacity is at least 1
(otherwise `push` diverges), and the zoom is positive (the camera
invariant under which the squared comparison is the source comparison). -/
theorem C6_move_image_threshold (st : MovingImage) (data : SceneData) (img : Image)
    (hfind : data.contents.image st.id = some img)
    (hcap : 1 ≤ data.command_invoker.buffer_size)
    (_hzoom : 0 < data.camera.zoom) :
    (squaredDist st.start_pos img.pos * data.camera.zoom ^ 2 > 10 ^ 2 →
      st.on_exit data = some { data with command_invoker :=
        (⟨data.command_invoker.undos.drop
            (data.command_invoker.undos.length + 1 - data.command_invoker.buffer_size)
          ++ [Command.moveImage st.id st.start_pos img.pos],
          data.command_invoker.redos, data.command_invoker.buffer_size⟩
          : CommandInvoker) }) ∧
    (¬ squaredDist st.start_pos img.pos * data.camera.zoom ^ 2 > 10 ^ 2 →
      st.on_exit data = some data) := by
  constructor
  · intro hgt
    simp only [MovingImage.on_exit, hfind]
    rw [if_pos hgt, push_eq_some hcap]
    rfl
  · intro hle
    simp only [MovingImage.on_exit, hfind]
    rw [if_neg hle]

/-- C6 witness: a 20-document-unit move at zoom 2 is 40 viewport pixels,
over the threshold, so exactly one `MoveImage(id 0, (0,0) to (20,0))` is
pushed; the invoker had capacity 1 and an empty undo log. -/
theorem C6_witness :
    MovingImage.on_exit ⟨0, (0, 0)⟩ exSceneC6 = some { exSceneC6 with
      command_invoker := (⟨[Command.moveImage 0 (0, 0) (20, 0)], [], 1⟩
        : CommandInvoker) } :=
  (C6_move_image_threshold ⟨0, (0, 0)⟩ exSceneC6 ⟨(20, 0), 7, true, 1, 0, 1, 0⟩
    rfl (by norm_num [exSceneC6, CommandInvoker.new])
    (by norm_num [exSceneC6, exCameraRest])).1
    (by norm_num [squaredDist, exSceneC6, exCameraRest])

/-- C4: during a zoom animation tick (pan interpolators at rest, as they
are while only a zoom is animating and the mouse stays put), the document
point that lay under the mouse before the tick maps to the same viewport
position — the mouse position itself — after the tick, for positive zoom
before and after; hence the zoom visually centers on the cursor across
every tick and once the animation resolves. -/
theorem C4_zoom_centers_on_cursor (c : Camera) (dt renderw renderh : ℚ)
    (mouse : ℚ × ℚ)
    (hx : (c.pos_x_interp.advance dt).1 = none)
    (hy : (c.pos_y_interp.advance dt).1 = none)
    (hz : 0 < c.zoom)
    (hz2 : 0 < ((c.update dt mouse renderw renderh).1).zoom) :
    pointToScreen (pointToCanvas mouse c) ((c.update dt mouse renderw renderh).1)
        = mouse ∧
    pointToScreen (pointToCanvas mouse c) c = mouse := by
  have hz0 : c.zoom ≠ 0 := ne_of_gt hz
  have hbase : pointToScreen (pointToCanvas mouse c) c = mouse := by
    obtain ⟨mx, my⟩ := mouse
    unfold pointToScreen pointToCanvas
    simp only [Prod.mk.injEq]
    constructor <;> field_simp <;> ring
  refine ⟨?_, hbase⟩
  unfold Camera.update at hz2 ⊢
  simp only [hx, hy] at hz2 ⊢
  cases hpz : (c.zoom_interp.advance dt).1 with
  | none =>
      simp only [hpz] at hz2 ⊢
      exact hbase
  | some dz =>
      simp only [hpz] at hz2 ⊢
      obtain ⟨mx, my⟩ := mouse
      have hz20 : c.zoom + dz ≠ 0 := ne_of_gt hz2
      unfold pointToScreen pointToCanvas
      simp only [Prod.mk.injEq]
      constructor <;> (field_simp; ring)

/-- C4 witness: a camera zooming from 2 toward 4 (duration 0.07) ticked
with dt = 0.035 steps its zoom to 3; the document point under the mouse
at (10, 20) stays at (10, 20). -/
theorem C4_witness :
    pointToScreen (pointToCanvas (10, 20) exCameraZooming)
        ((exCameraZooming.update (7 / 200) (10, 20) 0 0).1) = (10, 20) ∧
    pointToScreen (pointToCanvas (10, 20) exCameraZooming) exCameraZooming
        = (10, 20) :=
  C4_zoom_centers_on_cursor exCameraZooming (7 / 200) 0 0 (10, 20)
    (by norm_num [exCameraZooming, Interpolator.advance, tol])
    (by norm_num [exCameraZooming, Interpolator.advance, tol])
    (by norm_num [exCameraZooming])
    (by norm_num [exCameraZooming, Camera.update, Interpolator.advance, tol])

end Kajet
